import Mathlib

/-!
Shallow embedding of `src/starter_preprocess.py` (classes `TextPreprocessor`
and `FrequencyAnalyzer`).

Modelling conventions:
* Python `str` is modelled as `List Char`.
* The regex character classes `\w` and `\s` are modelled by their ASCII
  semantics (letters, digits, underscore; the six ASCII whitespace
  characters).  All regex substitutions in the source use single-character
  alternatives or character classes, so each substitution pass is a
  character-wise map (except the lookaround pattern of the
  `preserve_sentences=False` branch, modelled positionally below).
* Python `float` arithmetic in `calculate_probabilities` is modelled with
  exact rationals `ℚ`; Python's `ZeroDivisionError` is modelled by an
  `Except` value.
* Python `dict` (insertion-ordered, distinct keys) is modelled as an
  association list; `json.dump`/`json.load` of a string-keyed mapping is
  assumed to round-trip the mapping itself, so `save_frequencies` /
  `load_frequencies` are modelled by their key-transformation on the
  association list.
-/

/-- ASCII model of the regex class `\w`: letters, digits, underscore. -/
def isWordChar (c : Char) : Bool :=
  c.isAlpha || c.isDigit || c = '_'

/-- ASCII model of the regex class `\s`. -/
def isSpaceChar (c : Char) : Bool :=
  c = ' ' || c = '\t' || c = '\n' || c = '\r' || c = '\x0b' || c = '\x0c'

/-- The sentence-terminator class `[.!?]` used throughout the source. -/
def isTermChar (c : Char) : Bool :=
  c = '.' || c = '!' || c = '?'

/-- Python `str.lower()` restricted to ASCII (`Char.toLower` maps only `A`-`Z`). -/
def pyLower (c : Char) : Char := c.toLower

/-- Line 48: `re.sub(r'[""]', '"', text)`.  The class in the source file
literally contains two straight double quotes, so the substitution replaces
`"` by `"`: it is the identity, faithfully reproduced here. -/
def dquoteSub (c : Char) : Char :=
  if c = '"' then '"' else c

/-- Line 49: `re.sub(r"[‘’]", "'", text)` (curly single quotes U+2018/U+2019
to straight apostrophe). -/
def squoteSub (c : Char) : Char :=
  if c = '‘' || c = '’' then '\'' else c

/-- Line 50: `re.sub(r'—|–', '-', text)` (em dash U+2014 and en dash U+2013
to hyphen-minus). -/
def dashSub (c : Char) : Char :=
  if c = '—' || c = '–' then '-' else c

/-- The class kept by line 54's `re.sub(r'[^\w\s.!?\'-]', ' ', text)`. -/
def keepSentenceChar (c : Char) : Bool :=
  isWordChar c || isSpaceChar c || c = '.' || c = '!' || c = '?' ||
    c = '\'' || c = '-'

/-- Line 54 (the `preserve_sentences=True` branch): every character outside
the kept class becomes a single space. -/
def sentenceReplace (c : Char) : Char :=
  if keepSentenceChar c then c else ' '

def isWordOpt : Option Char → Bool
  | none => false
  | some c => isWordChar c

/-- Line 57 (the `preserve_sentences=False` branch):
`re.sub(r"(?<!\w)'(?!\w)|[^\w\s]", ' ', text)`.  A character is replaced by
a space when it is an apostrophe with no word character on either side, or
(second alternative) any non-word non-whitespace character.  `prev` is the
character immediately before the scan position (`none` at the start). -/
def stripPunct (prev : Option Char) : List Char → List Char
  | [] => []
  | c :: rest =>
    (if (c = '\'' && !isWordOpt prev && !isWordOpt rest.head?) ||
        (!isWordChar c && !isSpaceChar c)
     then ' ' else c) :: stripPunct (some c) rest

/-- Line 60: `re.sub(r'\s+', ' ', text)` — every maximal run of whitespace
characters becomes a single ASCII space. -/
def collapseWs : List Char → List Char
  | [] => []
  | [c] => if isSpaceChar c then [' '] else [c]
  | c₁ :: c₂ :: rest =>
    if isSpaceChar c₁ && isSpaceChar c₂ then collapseWs (c₂ :: rest)
    else (if isSpaceChar c₁ then ' ' else c₁) :: collapseWs (c₂ :: rest)

/-- Python `str.strip()` (ASCII whitespace model). -/
def stripL (l : List Char) : List Char :=
  ((l.dropWhile isSpaceChar).reverse.dropWhile isSpaceChar).reverse

/-- Embeds `TextPreprocessor.normalize_text` (lines 36-62). -/
def normalize_text (text : List Char) (preserve_sentences : Bool) : List Char :=
  let t1 := text.map pyLower
  let t2 := t1.map dquoteSub
  let t3 := t2.map squoteSub
  let t4 := t3.map dashSub
  let t5 := if preserve_sentences then t4.map sentenceReplace
            else stripPunct none t4
  stripL (collapseWs t5)

/-- Splitting in the style of `re.split(r'[.!?]+', text)` on maximal runs of
separator characters; empty pieces at run boundaries are produced, exactly
as `re.split` produces them. -/
def splitRuns (p : Char → Bool) : List Char → List (List Char) :=
  go []
where
  go (acc : List Char) : List Char → List (List Char)
    | [] => [acc.reverse]
    | [c] => if p c then [acc.reverse, []] else [(c :: acc).reverse]
    | c₁ :: c₂ :: rest =>
      if p c₁ then
        if p c₂ then go acc (c₂ :: rest)
        else acc.reverse :: go [] (c₂ :: rest)
      else go (c₁ :: acc) (c₂ :: rest)

/-- Embeds `TextPreprocessor.tokenize_sentences` (lines 64-68): split on `[.!?]+`,
strip each piece, discard empties. -/
def tokenize_sentences (text : List Char) : List (List Char) :=
  ((splitRuns isTermChar text).map stripL).filter (fun s => !s.isEmpty)

/-- Python `str.split()` with no arguments: split on whitespace runs,
discarding empty pieces. -/
def splitWs : List Char → List (List Char) :=
  go []
where
  go (cur : List Char) : List Char → List (List Char)
    | [] => if cur.isEmpty then [] else [cur.reverse]
    | c :: rest =>
      if isSpaceChar c then
        if cur.isEmpty then go [] rest else cur.reverse :: go [] rest
      else go (c :: cur) rest

/-- Embeds `TextPreprocessor.tokenize_words` (lines 70-75): delete `[.!?]`
characters (no replacement), split on whitespace, keep non-empty words
(the final comprehension `[w for w in words if w]`). -/
def tokenize_words (text : List Char) : List (List Char) :=
  (splitWs (text.filter (fun c => !isTermChar c))).filter (fun w => !w.isEmpty)

/-- Keys of a Python frequency dictionary: a plain string (`n = 1`) or a
tuple of strings (`n > 1`). -/
inductive PyKey where
  | scalar (s : List Char)
  | tup (ts : List (List Char))
deriving DecidableEq, Repr

/-- First-occurrence order of the distinct elements of a list — the key
order of `collections.Counter` (insertion-ordered dict). -/
def firstOccur {α : Type} [DecidableEq α] : List α → List α
  | [] => []
  | x :: xs => x :: (firstOccur xs).filter (fun y => y ≠ x)

/-- Embeds `dict(Counter(xs))`: each distinct element with its multiplicity, in
first-occurrence order. -/
def counterList {α : Type} [DecidableEq α] (xs : List α) : List (α × Nat) :=
  (firstOccur xs).map (fun k => (k, xs.count k))

/-- The sliding windows of `tokens[i:i+n]` for `i in range(len(tokens)-n+1)`
(lines 185-188); `Nat` truncation of `len - n + 1` matches Python's empty
`range` when `len - n + 1 ≤ 0`. -/
def slidingWindows (tokens : List (List Char)) (n : Nat) : List (List (List Char)) :=
  (List.range (tokens.length + 1 - n)).map (fun i => (tokens.drop i).take n)

/-- Embeds `FrequencyAnalyzer.calculate_ngrams` (lines 180-190). -/
def calculate_ngrams (tokens : List (List Char)) (n : Nat) : List (PyKey × Nat) :=
  if n = 1 then (counterList tokens).map (fun p => (PyKey.scalar p.1, p.2))
  else (counterList (slidingWindows tokens n)).map (fun p => (PyKey.tup p.1, p.2))

/-- Python errors that the modelled fragments can raise. -/
inductive PyError where
  | zeroDivision
deriving DecidableEq, Repr

deriving instance DecidableEq for Except

/-- Python division: raises `ZeroDivisionError` when the divisor is zero. -/
def pyDiv (a b : ℚ) : Except PyError ℚ :=
  if b = 0 then .error .zeroDivision else .ok (a / b)

/-- Embeds `FrequencyAnalyzer.calculate_probabilities` (lines 192-200): computes
`total = sum(counts) + smoothing * len(counts)` and divides each
`count + smoothing` by it, entry by entry; the first zero division aborts
the loop with an error, and an empty table performs no division at all. -/
def calculate_probabilities {α : Type} (ngram_counts : List (α × Nat))
    (smoothing : ℚ) : Except PyError (List (α × ℚ)) :=
  let total : ℚ :=
    (ngram_counts.map (fun p => (p.2 : ℚ))).sum + smoothing * ngram_counts.length
  ngram_counts.mapM (fun p =>
    Except.map (fun q => (p.1, q)) (pyDiv ((p.2 : ℚ) + smoothing) total))

/-- Embeds `'||' in key` (line 221): the two-character delimiter occurs in `key`. -/
def containsDelim : List Char → Bool
  | [] => false
  | [_] => false
  | c₁ :: c₂ :: rest => (c₁ = '|' && c₂ = '|') || containsDelim (c₂ :: rest)

/-- Embeds `'||'.join(key)` (line 207). -/
def joinDelim : List (List Char) → List Char
  | [] => []
  | [t] => t
  | t :: ts => t ++ '|' :: '|' :: joinDelim ts

/-- Embeds `key.split('||')` (line 222): split at each leftmost non-overlapping
occurrence of the delimiter. -/
def splitDelim : List Char → List (List Char) :=
  go []
where
  go (acc : List Char) : List Char → List (List Char)
    | [] => [acc.reverse]
    | [c] => [(c :: acc).reverse]
    | c₁ :: c₂ :: rest =>
      if c₁ = '|' && c₂ = '|' then acc.reverse :: go [] rest
      else go (c₁ :: acc) (c₂ :: rest)

/-- The key transformation of `FrequencyAnalyzer.save_frequencies`
(lines 204-209): tuple keys are joined with `'||'`, scalar keys kept. -/
def encodeKey : PyKey → List Char
  | .tup ts => joinDelim ts
  | .scalar s => s

/-- Embeds `FrequencyAnalyzer.save_frequencies` (lines 202-212), modelled as the
mapping written to JSON (the file I/O itself carries the string-keyed
mapping unchanged). -/
def save_frequencies (frequencies : List (PyKey × Nat)) : List (List Char × Nat) :=
  frequencies.map (fun p => (encodeKey p.1, p.2))

/-- The key transformation of `FrequencyAnalyzer.load_frequencies`
(lines 220-224): keys containing `'||'` are split into tuples. -/
def decodeKey (s : List Char) : PyKey :=
  if containsDelim s then .tup (splitDelim s) else .scalar s

/-- Embeds `FrequencyAnalyzer.load_frequencies` (lines 214-226), modelled from the
JSON mapping read back. -/
def load_frequencies (json_data : List (List Char × Nat)) : List (PyKey × Nat) :=
  json_data.map (fun p => (decodeKey p.1, p.2))

/-- Stable insertion (descending by count) used to model the stable
descending sort of `Counter.most_common`. -/
def insertDesc {α : Type} (x : α × Nat) : List (α × Nat) → List (α × Nat)
  | [] => [x]
  | y :: ys => if y.2 ≤ x.2 then x :: y :: ys else y :: insertDesc x ys

/-- Stable sort by descending count: CPython's `Counter.most_common` sorts
the insertion-ordered items by count descending, ties keeping their
original (first-occurrence) order. -/
def sortDescByCount {α : Type} : List (α × Nat) → List (α × Nat)
  | [] => []
  | x :: xs => insertDesc x (sortDescByCount xs)

/-- Embeds `Counter(words).most_common(10)` (lines 141-142). -/
def most_common_words (text : List Char) : List (List Char × Nat) :=
  (sortDescByCount (counterList (tokenize_words text))).take 10

/-- The fields of `TextPreprocessor.get_text_statistics` (lines 117-151)
that the verified claims mention.  The two rounded float averages
(`avg_word_length`, `avg_sentence_length`) are not modelled: no claim
refers to them. -/
structure TextStats where
  total_characters : Nat
  total_words : Nat
  total_sentences : Nat
  most_common_words : List (List Char × Nat)
deriving DecidableEq, Repr

/-- Embeds `TextPreprocessor.get_text_statistics` (claimed fields). -/
def get_text_statistics (text : List Char) : TextStats :=
  { total_characters := text.length
    total_words := (tokenize_words text).length
    total_sentences := (tokenize_sentences text).length
    most_common_words := most_common_words text }

/-- Python slice `l[:k]` for an `int` bound `k` (negative bounds count from
the end; out-of-range negatives give the empty list). -/
def pySliceTo {α : Type} (l : List α) (k : Int) : List α :=
  if k < 0 then l.take ((l.length : Int) + k).toNat else l.take k.toNat

/-- Embeds `'. '.join(pieces)` (line 169). -/
def joinDotSpace : List (List Char) → List Char
  | [] => []
  | [s] => s
  | s :: ss => s ++ '.' :: ' ' :: joinDotSpace ss

/-- Embeds `summary.endswith(('.', '!', '?'))` (line 171). -/
def endsWithTerm (l : List Char) : Bool :=
  match l.getLast? with
  | some c => isTermChar c
  | none => false

/-- Embeds `TextPreprocessor.create_summary` (lines 153-174). -/
def create_summary (text : List Char) (num_sentences : Int) : List Char :=
  let sentences := tokenize_sentences text
  if sentences.isEmpty then []
  else
    let summary := joinDotSpace (pySliceTo sentences num_sentences)
    if endsWithTerm summary then summary else summary ++ ['.']

/-- The composite of the lower-casing pass and the three
quote/dash-standardization passes, as a single character map. -/
def normChar (c : Char) : Char :=
  dashSub (squoteSub (dquoteSub (pyLower c)))

/-- The whole per-character transformation of the
`preserve_sentences=True` branch. -/
def gTrue (c : Char) : Char :=
  sentenceReplace (normChar c)

/-- A non-last tuple element must not end in `'|'` for the encoding to be
unambiguous: `'||'.join` would glue its trailing pipe onto the delimiter. -/
def noMidPipe : List (List Char) → Bool
  | [] => true
  | [_] => true
  | t :: ts => (t.getLast? != some '|') && noMidPipe ts

/-- The keys on which `save_frequencies`/`load_frequencies` round-trip:
scalar keys not containing `'||'`; tuple keys with at least two elements,
none containing `'||'`, and no element but the last ending in `'|'`. -/
def KeySafe : PyKey → Prop
  | .scalar s => containsDelim s = false
  | .tup ts => 2 ≤ ts.length ∧ (∀ x ∈ ts, containsDelim x = false) ∧
      noMidPipe ts = true

instance (k : PyKey) : Decidable (KeySafe k) := by
  cases k with
  | scalar s => exact inferInstanceAs (Decidable (containsDelim s = false))
  | tup ts => exact inferInstanceAs (Decidable (_ ∧ _ ∧ _))

lemma joinDelim_cons_cons (t u : List Char) (ts : List (List Char)) :
    joinDelim (t :: u :: ts) = t ++ '|' :: '|' :: joinDelim (u :: ts) := rfl

lemma noMidPipe_cons_cons (t u : List Char) (ts : List (List Char)) :
    noMidPipe (t :: u :: ts)
      = ((t.getLast? != some '|') && noMidPipe (u :: ts)) := rfl

/-! Claim C9 -/

/-- C9: for the empty counts table, `calculate_probabilities` returns the
empty mapping without raising any error, for every value of `smoothing`
(no key is iterated, so no division is performed). -/
theorem C9_probabilities_empty_table (smoothing : ℚ) :
    calculate_probabilities (α := PyKey) [] smoothing = .ok [] := rfl

/-! Claim C3

The source computes `total = 0` when all counts are zero and `smoothing = 0`
on a non-empty table, and then divides by it: Python raises
`ZeroDivisionError`.  The source contains no `EmptyDistributionError` at
all, so the claimed error cannot be raised; the division is not guarded. -/

/-- C3: at the failing input `{ 'a' : 0 }` with `smoothing = 0`, the code
reaches the division `(0 + 0.0) / 0.0` and raises `ZeroDivisionError`
(modelled as `.error .zeroDivision`), not an `EmptyDistributionError`. -/
theorem C3_zero_total_divides_by_zero :
    calculate_probabilities [(PyKey.scalar ['a'], 0)] 0
      = .error .zeroDivision := by
  simp [calculate_probabilities, pyDiv, List.mapM, List.mapM.loop, Except.map]

/-! Claim C2

`save_frequencies` performs no validation whatsoever: a tuple key whose
token contains `'||'` is joined and written successfully, and the written
table no longer round-trips. -/

/-- C2: at the failing input `{('a', 'b||c'): 1}`, `save_frequencies`
returns normally (writing the ambiguous key `'a||b||c'`) instead of
raising `SerializationError` before writing; reloading then yields the
different key `('a', 'b', 'c')`. -/
theorem C2_save_does_not_validate_delimiter :
    save_frequencies [(PyKey.tup [['a'], ['b', '|', '|', 'c']], 1)]
        = [(['a', '|', '|', 'b', '|', '|', 'c'], 1)] ∧
      load_frequencies
          (save_frequencies [(PyKey.tup [['a'], ['b', '|', '|', 'c']], 1)])
        = [(PyKey.tup [['a'], ['b'], ['c']], 1)] := by
  decide

/-! Claim C10 -/

/-- C10 counterexample: `"a. b."` has two sentences and `num_sentences = -1`
is `≤ 0`, yet `create_summary` returns `"a."`, not `"."`: the Python slice
`sentences[:-1]` keeps all sentences but the last. -/
theorem C10_counterexample :
    tokenize_sentences ("a. b.").toList ≠ [] ∧ (-1 : Int) ≤ 0 ∧
      create_summary ("a. b.").toList (-1) = ['a', '.'] ∧
      create_summary ("a. b.").toList (-1) ≠ ['.'] := by
  decide

/-- C10 (amended): for a text with at least one sentence, `create_summary`
returns the single-character string `"."` when `num_sentences = 0`, or when
`num_sentences` is so negative that the slice `sentences[:num_sentences]`
is empty (`num_sentences + len(sentences) ≤ 0`); for other negative values
the slice keeps all but the trailing `|num_sentences|` sentences. -/
theorem C10_nonpositive_num_sentences (text : List Char) (n : Int)
    (h1 : tokenize_sentences text ≠ [])
    (h2 : n = 0 ∨ n + (tokenize_sentences text).length ≤ 0) :
    create_summary text n = ['.'] := by
  have hlen : 1 ≤ ((tokenize_sentences text).length : Int) := by
    have := List.length_pos.mpr h1
    exact_mod_cast this
  have hslice : pySliceTo (tokenize_sentences text) n = [] := by
    rcases h2 with h | h
    · subst h
      simp [pySliceTo]
    · have hneg : n < 0 := by omega
      have hz : (((tokenize_sentences text).length : Int) + n).toNat = 0 := by
        omega
      simp [pySliceTo, if_pos hneg, hz]
  simp [create_summary, h1, hslice, joinDotSpace, endsWithTerm]

/-- C10 witness: the amended theorem applied at `text = "a. b."`,
`num_sentences = 0`. -/
theorem C10_nonpositive_num_sentences_witness :
    create_summary ("a. b.").toList 0 = ['.'] :=
  C10_nonpositive_num_sentences (("a. b.").toList) 0 (by decide) (Or.inl rfl)

/-! Claim C4 -/

lemma mem_firstOccur {α : Type} [DecidableEq α] (xs : List α) (a : α) :
    a ∈ firstOccur xs ↔ a ∈ xs := by
  induction xs with
  | nil => simp [firstOccur]
  | cons x xs ih =>
    rw [firstOccur]
    simp only [List.mem_cons, List.mem_filter, ih, ne_eq, decide_eq_true_eq]
    by_cases hax : a = x <;> tauto

lemma nodup_firstOccur {α : Type} [DecidableEq α] (xs : List α) :
    (firstOccur xs).Nodup := by
  induction xs with
  | nil => simp [firstOccur]
  | cons x xs ih =>
    rw [firstOccur]
    refine List.nodup_cons.mpr ⟨?_, ih.filter _⟩
    intro hmem
    simp [List.mem_filter] at hmem

lemma firstOccur_perm_dedup {α : Type} [DecidableEq α] (xs : List α) :
    List.Perm (firstOccur xs) xs.dedup := by
  rw [List.perm_ext_iff_of_nodup (nodup_firstOccur xs) xs.nodup_dedup]
  intro a
  rw [mem_firstOccur, List.mem_dedup]

lemma counterList_map_snd_sum {α : Type} [DecidableEq α] (xs : List α) :
    ((counterList xs).map (fun p => p.2)).sum = xs.length := by
  rw [counterList, List.map_map]
  have hperm : List.Perm ((firstOccur xs).map (fun k => xs.count k))
      (xs.dedup.map (fun k => xs.count k)) :=
    (firstOccur_perm_dedup xs).map _
  calc ((firstOccur xs).map ((fun p => p.2) ∘ fun k => (k, xs.count k))).sum
      = ((firstOccur xs).map (fun k => xs.count k)).sum := rfl
    _ = (xs.dedup.map (fun k => xs.count k)).sum := hperm.sum_eq
    _ = xs.length := List.sum_map_count_dedup_eq_length xs

lemma slidingWindows_length (tokens : List (List Char)) (n : Nat) :
    (slidingWindows tokens n).length = tokens.length + 1 - n := by
  simp [slidingWindows]

/-- C4: for tokens of length `L` and `1 ≤ n ≤ L`, the n-gram counts sum to
`L - n + 1`; for `n > L` the table is empty. -/
theorem C4_ngram_count_conservation (tokens : List (List Char)) (n : Nat) :
    (1 ≤ n → n ≤ tokens.length →
      ((calculate_ngrams tokens n).map (fun p => p.2)).sum
        = tokens.length - n + 1) ∧
    (tokens.length < n → calculate_ngrams tokens n = []) := by
  constructor
  · intro h1 h2
    by_cases hn : n = 1
    · subst hn
      rw [calculate_ngrams, if_pos rfl, List.map_map]
      have he : ((counterList tokens).map ((fun p => p.2) ∘
          fun p => (PyKey.scalar p.1, p.2))).sum
          = ((counterList tokens).map (fun p => p.2)).sum := rfl
      rw [he, counterList_map_snd_sum]
      omega
    · rw [calculate_ngrams, if_neg hn, List.map_map]
      have he : ((counterList (slidingWindows tokens n)).map ((fun p => p.2) ∘
          fun p => (PyKey.tup p.1, p.2))).sum
          = ((counterList (slidingWindows tokens n)).map (fun p => p.2)).sum := rfl
      rw [he, counterList_map_snd_sum, slidingWindows_length]
      omega
  · intro h
    by_cases hn : n = 1
    · subst hn
      have : tokens = [] := List.length_eq_zero.mp (by omega)
      subst this
      rfl
    · rw [calculate_ngrams, if_neg hn]
      have hz : tokens.length + 1 - n = 0 := by omega
      rw [slidingWindows, hz]
      rfl

/-- C4 witness: the theorem instantiated at `tokens = ["a","b","a","b"]`
with `n = 2` (three windows) and at the same tokens with `n = 5 > 4`
(empty table). -/
theorem C4_ngram_count_conservation_witness :
    ((calculate_ngrams [['a'], ['b'], ['a'], ['b']] 2).map (fun p => p.2)).sum = 3 ∧
      calculate_ngrams [['a'], ['b'], ['a'], ['b']] 5 = [] := by
  constructor
  · have h := (C4_ngram_count_conservation [['a'], ['b'], ['a'], ['b']] 2).1
      (by norm_num) (by norm_num)
    simpa using h
  · exact (C4_ngram_count_conservation [['a'], ['b'], ['a'], ['b']] 5).2
      (by norm_num)

/-! Claim C5 -/

lemma mapM_pyDiv_ok {α : Type} (l : List (α × Nat)) (s t : ℚ) (ht : t ≠ 0) :
    (l.mapM (fun p => Except.map (fun q => (p.1, q))
        (pyDiv ((p.2 : ℚ) + s) t)))
      = Except.ok (l.map (fun p => (p.1, ((p.2 : ℚ) + s) / t))) := by
  induction l with
  | nil => rfl
  | cons x xs ih =>
    rw [List.mapM_cons, ih]
    simp only [pyDiv, if_neg ht, Except.map]
    rfl

lemma sum_map_add_smul {α : Type} (l : List (α × Nat)) (s : ℚ) :
    (l.map (fun p => (p.2 : ℚ) + s)).sum
      = (l.map (fun p => (p.2 : ℚ))).sum + s * l.length := by
  induction l with
  | nil => simp
  | cons x xs ih =>
    simp only [List.map_cons, List.sum_cons, ih, List.length_cons]
    push_cast
    ring

lemma sum_map_div {α : Type} (l : List (α × Nat)) (s t : ℚ) :
    (l.map (fun p => ((p.2 : ℚ) + s) / t)).sum
      = (l.map (fun p => (p.2 : ℚ) + s)).sum / t := by
  induction l with
  | nil => simp
  | cons x xs ih =>
    simp only [List.map_cons, List.sum_cons, ih]
    rw [div_add_div_same]

/-- C5: for every non-empty counts table (non-negative integer counts) and
every smoothing `≥ 0` such that not every `count + smoothing` term is zero,
`calculate_probabilities` succeeds and its values sum to `1` within
`1e-9`. -/
theorem C5_probability_normalization {α : Type} (counts : List (α × Nat))
    (smoothing : ℚ) (hne : counts ≠ []) (hs : 0 ≤ smoothing)
    (hterm : ∃ p ∈ counts, (p.2 : ℚ) + smoothing ≠ 0) :
    ∃ probs, calculate_probabilities counts smoothing = .ok probs ∧
      |(probs.map (fun p => p.2)).sum - 1| ≤ 1 / 1000000000 := by
  obtain ⟨p₀, hp₀, hp₀ne⟩ := hterm
  set total : ℚ :=
    (counts.map (fun p => (p.2 : ℚ))).sum + smoothing * counts.length with htotal
  have htot_eq : (counts.map (fun p => (p.2 : ℚ) + smoothing)).sum = total :=
    sum_map_add_smul counts smoothing
  have hmem : ((p₀.2 : ℚ) + smoothing) ∈ counts.map (fun p => (p.2 : ℚ) + smoothing) :=
    List.mem_map.mpr ⟨p₀, hp₀, rfl⟩
  have hnonneg : ∀ x ∈ counts.map (fun p => (p.2 : ℚ) + smoothing), 0 ≤ x := by
    intro x hx
    obtain ⟨p, _, rfl⟩ := List.mem_map.mp hx
    positivity
  have hpos : 0 < total := by
    have hle := List.single_le_sum hnonneg _ hmem
    have : 0 < (p₀.2 : ℚ) + smoothing :=
      lt_of_le_of_ne (hnonneg _ hmem) (Ne.symm hp₀ne)
    rw [← htot_eq]
    exact lt_of_lt_of_le this hle
  have ht : total ≠ 0 := ne_of_gt hpos
  refine ⟨counts.map (fun p => (p.1, ((p.2 : ℚ) + smoothing) / total)), ?_, ?_⟩
  · rw [calculate_probabilities]
    exact mapM_pyDiv_ok counts smoothing total ht
  · rw [List.map_map]
    have he : (counts.map ((fun p => p.2) ∘
        fun p => (p.1, ((p.2 : ℚ) + smoothing) / total)))
        = counts.map (fun p => ((p.2 : ℚ) + smoothing) / total) := rfl
    rw [he, sum_map_div, htot_eq, div_self ht]
    norm_num

/-- C5 witness: the theorem at the one-entry table `{k : 1}` with zero
smoothing. -/
theorem C5_probability_normalization_witness :
    ∃ probs, calculate_probabilities [(PyKey.scalar ['a'], 1)] (0 : ℚ)
        = .ok probs ∧
      |(probs.map (fun p => p.2)).sum - 1| ≤ 1 / 1000000000 :=
  C5_probability_normalization [(PyKey.scalar ['a'], 1)] 0 (by simp)
    (le_refl 0) ⟨(PyKey.scalar ['a'], 1), by simp, by norm_num⟩

lemma containsDelim_append_delim (l r : List Char) :
    containsDelim (l ++ '|' :: '|' :: r) = true := by
  induction l with
  | nil => simp [containsDelim]
  | cons c l ih =>
    cases hl : l ++ '|' :: '|' :: r with
    | nil => exact absurd hl (by simp)
    | cons d rest =>
      rw [List.cons_append, hl, containsDelim, ← hl, ih, Bool.or_true]

lemma splitGo_no_delim (t : List Char) :
    ∀ acc, containsDelim t = false →
      splitDelim.go acc t = [acc.reverse ++ t] := by
  induction t with
  | nil => intro acc _; simp [splitDelim.go]
  | cons c t ih =>
    intro acc h
    cases t with
    | nil => simp [splitDelim.go]
    | cons d t' =>
      rw [containsDelim, Bool.or_eq_false_iff] at h
      rw [splitDelim.go, if_neg (by simp [h.1]), ih (c :: acc) h.2]
      simp

lemma splitGo_step (t : List Char) (r : List Char) :
    ∀ acc, containsDelim t = false → t.getLast? ≠ some '|' →
      splitDelim.go acc (t ++ '|' :: '|' :: r)
        = (acc.reverse ++ t) :: splitDelim.go [] r := by
  induction t with
  | nil =>
    intro acc _ _
    rw [List.nil_append, splitDelim.go, if_pos (by simp)]
    simp
  | cons c t ih =>
    intro acc h1 h2
    cases t with
    | nil =>
      have hc : c ≠ '|' := by
        intro hc
        exact h2 (by simp [hc])
      rw [List.cons_append, List.nil_append, splitDelim.go,
        if_neg (by simp [hc]), splitDelim.go, if_pos (by simp)]
      simp
    | cons d t' =>
      rw [containsDelim, Bool.or_eq_false_iff] at h1
      rw [List.getLast?_cons_cons] at h2
      rw [List.cons_append, List.cons_append, splitDelim.go,
        if_neg (by simp [h1.1]), ← List.cons_append,
        ih (c :: acc) h1.2 h2]
      simp

lemma splitDelim_joinDelim (ts : List (List Char)) (hne : ts ≠ [])
    (hc : ∀ x ∈ ts, containsDelim x = false) (hp : noMidPipe ts = true) :
    splitDelim (joinDelim ts) = ts := by
  induction ts with
  | nil => exact absurd rfl hne
  | cons t ts ih =>
    cases ts with
    | nil =>
      show splitDelim.go [] (joinDelim [t]) = [t]
      rw [joinDelim, splitGo_no_delim t [] (hc t (by simp))]
      simp
    | cons u ts' =>
      rw [noMidPipe_cons_cons, Bool.and_eq_true, bne_iff_ne] at hp
      show splitDelim.go [] (joinDelim (t :: u :: ts')) = t :: u :: ts'
      rw [joinDelim_cons_cons, splitGo_step t _ [] (hc t (by simp)) hp.1]
      have hrest := ih (List.cons_ne_nil u ts')
        (fun x hx => hc x (List.mem_cons_of_mem t hx)) hp.2
      rw [show splitDelim.go [] (joinDelim (u :: ts'))
            = splitDelim (joinDelim (u :: ts')) from rfl, hrest]
      simp

lemma decodeKey_encodeKey (k : PyKey) (h : KeySafe k) :
    decodeKey (encodeKey k) = k := by
  cases k with
  | scalar s =>
    have h' : containsDelim s = false := h
    rw [encodeKey, decodeKey, if_neg (by simp [h'])]
  | tup ts =>
    obtain ⟨hlen, hc, hp⟩ := h
    obtain ⟨t₁, ts₁, rfl⟩ : ∃ a l, ts = a :: l := by
      cases ts with
      | nil => simp at hlen
      | cons a l => exact ⟨a, l, rfl⟩
    obtain ⟨t₂, ts₂, rfl⟩ : ∃ a l, ts₁ = a :: l := by
      cases ts₁ with
      | nil => simp at hlen
      | cons a l => exact ⟨a, l, rfl⟩
    have hcd : containsDelim (joinDelim (t₁ :: t₂ :: ts₂)) = true := by
      rw [joinDelim_cons_cons]
      exact containsDelim_append_delim t₁ _
    rw [encodeKey, decodeKey, if_pos hcd,
      splitDelim_joinDelim _ (by simp) hc hp]

/-! Claim C1 -/

/-- C1 counterexample: two tables whose key tokens never contain `'||'`
but which do not round-trip.  A 1-tuple key `('a',)` is joined without any
delimiter and reloads as the scalar `'a'` (the tuple/scalar shape is lost);
a token ending in `'|'` glues onto the delimiter, so `('a|', 'b')` is
written as `'a|||b'` and reloads as `('a', '|b')`. -/
theorem C1_counterexample :
    (containsDelim ['a'] = false ∧
      load_frequencies (save_frequencies [(PyKey.tup [['a']], 1)])
        ≠ [(PyKey.tup [['a']], 1)]) ∧
    (containsDelim ['a', '|'] = false ∧ containsDelim ['b'] = false ∧
      load_frequencies (save_frequencies [(PyKey.tup [['a', '|'], ['b']], 1)])
        ≠ [(PyKey.tup [['a', '|'], ['b']], 1)]) := by
  decide

/-- C1 (amended): serialize-then-deserialize is the identity on every
frequency table whose keys satisfy, beyond the claim's token condition
(no token contains `'||'`), the two conditions the counterexample forces:
every tuple key has at least two elements, and no tuple element other than
the last ends in `'|'`. -/
theorem C1_serialization_roundtrip (table : List (PyKey × Nat))
    (h : ∀ p ∈ table, KeySafe p.1) :
    load_frequencies (save_frequencies table) = table := by
  rw [load_frequencies, save_frequencies, List.map_map]
  conv_rhs => rw [← List.map_id table]
  refine List.map_congr_left ?_
  intro p hp
  have hk := decodeKey_encodeKey p.1 (h p hp)
  simp [Function.comp, hk]

/-- C1 witness: the amended theorem applied to the concrete table
`{('a', 'b|'): 2, 'c': 1}` (the last tuple element may end in `'|'`). -/
theorem C1_serialization_roundtrip_witness :
    load_frequencies (save_frequencies
        [(PyKey.tup [['a'], ['b', '|']], 2), (PyKey.scalar ['c'], 1)])
      = [(PyKey.tup [['a'], ['b', '|']], 2), (PyKey.scalar ['c'], 1)] :=
  C1_serialization_roundtrip
    [(PyKey.tup [['a'], ['b', '|']], 2), (PyKey.scalar ['c'], 1)] (by decide)

lemma perm_insertDesc {α : Type} (x : α × Nat) (l : List (α × Nat)) :
    List.Perm (insertDesc x l) (x :: l) := by
  induction l with
  | nil => exact List.Perm.refl _
  | cons y ys ih =>
    rw [insertDesc]
    split
    · exact List.Perm.refl _
    · exact (ih.cons y).trans (List.Perm.swap x y ys)

lemma perm_sortDescByCount {α : Type} (l : List (α × Nat)) :
    List.Perm (sortDescByCount l) l := by
  induction l with
  | nil => exact List.Perm.refl _
  | cons x xs ih =>
    rw [sortDescByCount]
    exact (perm_insertDesc x (sortDescByCount xs)).trans (ih.cons x)

lemma pairwise_insertDesc {α : Type} (x : α × Nat) (l : List (α × Nat))
    (h : l.Pairwise (fun a b => b.2 ≤ a.2)) :
    (insertDesc x l).Pairwise (fun a b => b.2 ≤ a.2) := by
  induction l with
  | nil => simp [insertDesc]
  | cons y ys ih =>
    have h1 := List.pairwise_cons.mp h
    rw [insertDesc]
    split
    · refine List.pairwise_cons.mpr ⟨?_, h⟩
      intro z hz
      rcases List.mem_cons.mp hz with rfl | hz
      · assumption
      · exact le_trans (h1.1 z hz) (by assumption)
    · refine List.pairwise_cons.mpr ⟨?_, ih h1.2⟩
      intro z hz
      have hz' := (perm_insertDesc x ys).mem_iff.mp hz
      rcases List.mem_cons.mp hz' with rfl | h''
      · omega
      · exact h1.1 z h''

lemma pairwise_sortDescByCount {α : Type} (l : List (α × Nat)) :
    (sortDescByCount l).Pairwise (fun a b => b.2 ≤ a.2) := by
  induction l with
  | nil => simp [sortDescByCount]
  | cons x xs ih =>
    rw [sortDescByCount]
    exact pairwise_insertDesc x _ ih

lemma filter_insertDesc {α : Type} (x : α × Nat) (l : List (α × Nat)) (k : Nat) :
    (insertDesc x l).filter (fun p => p.2 == k)
      = if x.2 = k then x :: l.filter (fun p => p.2 == k)
        else l.filter (fun p => p.2 == k) := by
  induction l with
  | nil =>
    by_cases hx : x.2 = k <;> simp [insertDesc, List.filter_cons, hx]
  | cons y ys ih =>
    rw [insertDesc]
    split
    · by_cases hx : x.2 = k <;> simp [List.filter_cons, hx]
    · rename_i hyx
      by_cases hx : x.2 = k <;> by_cases hy : y.2 = k <;>
        simp [List.filter_cons, hx, hy, ih] <;> omega
  
lemma filter_sortDescByCount {α : Type} (l : List (α × Nat)) (k : Nat) :
    (sortDescByCount l).filter (fun p => p.2 == k)
      = l.filter (fun p => p.2 == k) := by
  induction l with
  | nil => rfl
  | cons x xs ih =>
    rw [sortDescByCount, filter_insertDesc, ih]
    by_cases hx : x.2 = k <;> simp [List.filter_cons, hx]

/-! Claim C8 -/

/-- C8: `most_common_words` is the 10-element (at most) prefix of a
stable descending-by-count ordering of the word counter: its counts are
descending, it is drawn from a permutation of the first-occurrence-ordered
counter, and entries with any equal count keep exactly their
first-occurrence order (the filter equalities).  On the concrete input
`"the cat sat on the mat. the cat ran."` the statistics are
`total_words = 9`, `total_sentences = 2`, and `"the"` with count 3 ranks
first. -/
theorem C8_most_common_words_spec :
    (∀ text : List Char,
      (most_common_words text).length ≤ 10 ∧
      most_common_words text
        = (sortDescByCount (counterList (tokenize_words text))).take 10 ∧
      List.Perm (sortDescByCount (counterList (tokenize_words text)))
        (counterList (tokenize_words text)) ∧
      List.Chain' (fun a b => b.2 ≤ a.2) (most_common_words text) ∧
      (∀ k : Nat,
        (sortDescByCount (counterList (tokenize_words text))).filter
            (fun p => p.2 == k)
          = (counterList (tokenize_words text)).filter (fun p => p.2 == k))) ∧
    (get_text_statistics ("the cat sat on the mat. the cat ran.").toList).total_words
      = 9 ∧
    (get_text_statistics ("the cat sat on the mat. the cat ran.").toList).total_sentences
      = 2 ∧
    (get_text_statistics ("the cat sat on the mat. the cat ran.").toList).most_common_words.head?
      = some (("the").toList, 3) := by
  refine ⟨?_, by decide, by decide, by decide⟩
  intro text
  refine ⟨?_, rfl, perm_sortDescByCount _, ?_, fun k => filter_sortDescByCount _ k⟩
  · rw [most_common_words, List.length_take]
    exact Nat.min_le_left _ _
  · exact ((pairwise_sortDescByCount _).sublist (List.take_sublist _ _)).chain'

lemma toNat_ofNat_valid (n : Nat) (h : n < 55296) : (Char.ofNat n).toNat = n := by
  have hv : n.isValidChar := Or.inl h
  simp only [Char.ofNat, hv, dif_pos, Char.ofNatAux, Char.toNat]
  simp [UInt32.toNat, BitVec.toNat_ofNatLt]

lemma pyLower_def (c : Char) :
    pyLower c = if c.toNat ≥ 65 ∧ c.toNat ≤ 90
                then Char.ofNat (c.toNat + 32) else c := rfl

lemma pyLower_notUpper (c : Char) :
    ¬((pyLower c).toNat ≥ 65 ∧ (pyLower c).toNat ≤ 90) := by
  rw [pyLower_def]
  split
  · rename_i h
    rw [toNat_ofNat_valid _ (by omega)]
    omega
  · rename_i h
    exact h

lemma pyLower_of_notUpper (c : Char)
    (h : ¬(c.toNat ≥ 65 ∧ c.toNat ≤ 90)) : pyLower c = c := by
  rw [pyLower_def, if_neg h]

lemma dquoteSub_id (c : Char) : dquoteSub c = c := by
  rw [dquoteSub]
  split
  · rename_i h
    exact h.symm
  · rfl

lemma squoteSub_cases (c : Char) : squoteSub c = c ∨ squoteSub c = '\'' := by
  rw [squoteSub]
  split
  · exact Or.inr rfl
  · exact Or.inl rfl

lemma dashSub_cases (c : Char) : dashSub c = c ∨ dashSub c = '-' := by
  rw [dashSub]
  split
  · exact Or.inr rfl
  · exact Or.inl rfl

lemma squoteSub_ne_curly (c : Char) :
    squoteSub c ≠ '‘' ∧ squoteSub c ≠ '’' := by
  rw [squoteSub]
  split
  · exact ⟨by decide, by decide⟩
  · rename_i h
    simp only [Bool.or_eq_true, decide_eq_true_eq] at h
    push_neg at h
    exact h

lemma dashSub_ne_mdash (c : Char) :
    dashSub c ≠ '—' ∧ dashSub c ≠ '–' := by
  rw [dashSub]
  split
  · exact ⟨by decide, by decide⟩
  · rename_i h
    simp only [Bool.or_eq_true, decide_eq_true_eq] at h
    push_neg at h
    exact h

lemma squoteSub_of_ne (c : Char) (h1 : c ≠ '‘') (h2 : c ≠ '’') :
    squoteSub c = c := by
  rw [squoteSub, if_neg]
  simp [h1, h2]

lemma dashSub_of_ne (c : Char) (h1 : c ≠ '—') (h2 : c ≠ '–') :
    dashSub c = c := by
  rw [dashSub, if_neg]
  simp [h1, h2]

lemma dashSub_ne_curly (c : Char) (h1 : c ≠ '‘') (h2 : c ≠ '’') :
    dashSub c ≠ '‘' ∧ dashSub c ≠ '’' := by
  rcases dashSub_cases c with he | he <;> rw [he]
  · exact ⟨h1, h2⟩
  · exact ⟨by decide, by decide⟩

lemma notUpper_squoteSub (c : Char)
    (h : ¬(c.toNat ≥ 65 ∧ c.toNat ≤ 90)) :
    ¬((squoteSub c).toNat ≥ 65 ∧ (squoteSub c).toNat ≤ 90) := by
  rcases squoteSub_cases c with he | he <;> rw [he]
  · exact h
  · decide

lemma notUpper_dashSub (c : Char)
    (h : ¬(c.toNat ≥ 65 ∧ c.toNat ≤ 90)) :
    ¬((dashSub c).toNat ≥ 65 ∧ (dashSub c).toNat ≤ 90) := by
  rcases dashSub_cases c with he | he <;> rw [he]
  · exact h
  · decide

lemma normChar_notUpper (c : Char) :
    ¬((normChar c).toNat ≥ 65 ∧ (normChar c).toNat ≤ 90) := by
  rw [normChar, dquoteSub_id]
  exact notUpper_dashSub _ (notUpper_squoteSub _ (pyLower_notUpper c))

lemma pyLower_normChar (c : Char) : pyLower (normChar c) = normChar c :=
  pyLower_of_notUpper _ (normChar_notUpper c)

lemma normChar_ne_curly (c : Char) :
    normChar c ≠ '‘' ∧ normChar c ≠ '’' := by
  rw [normChar]
  exact dashSub_ne_curly _ (squoteSub_ne_curly _).1 (squoteSub_ne_curly _).2

lemma normChar_ne_mdash (c : Char) :
    normChar c ≠ '—' ∧ normChar c ≠ '–' := by
  rw [normChar]
  exact dashSub_ne_mdash _

lemma normChar_normChar (c : Char) : normChar (normChar c) = normChar c := by
  conv_lhs => rw [normChar]
  rw [pyLower_normChar, dquoteSub_id,
    squoteSub_of_ne _ (normChar_ne_curly c).1 (normChar_ne_curly c).2,
    dashSub_of_ne _ (normChar_ne_mdash c).1 (normChar_ne_mdash c).2]

lemma sentenceReplace_idem (c : Char) :
    sentenceReplace (sentenceReplace c) = sentenceReplace c := by
  by_cases h : keepSentenceChar c = true
  · have he : sentenceReplace c = c := by rw [sentenceReplace, if_pos h]
    rw [he, he]
  · have he : sentenceReplace c = ' ' := by rw [sentenceReplace, if_neg h]
    rw [he]
    decide

lemma normChar_gTrue (c : Char) : normChar (gTrue c) = gTrue c := by
  by_cases h : keepSentenceChar (normChar c) = true
  · have he : gTrue c = normChar c := by rw [gTrue, sentenceReplace, if_pos h]
    rw [he, normChar_normChar]
  · have he : gTrue c = ' ' := by rw [gTrue, sentenceReplace, if_neg h]
    rw [he]
    decide

lemma gTrue_idem (c : Char) : gTrue (gTrue c) = gTrue c := by
  show sentenceReplace (normChar (gTrue c)) = gTrue c
  rw [normChar_gTrue]
  show sentenceReplace (sentenceReplace (normChar c)) = sentenceReplace (normChar c)
  exact sentenceReplace_idem _

lemma gTrue_keep (c : Char) : keepSentenceChar (gTrue c) = true := by
  by_cases h : keepSentenceChar (normChar c) = true
  · have he : gTrue c = normChar c := by rw [gTrue, sentenceReplace, if_pos h]
    rw [he]
    exact h
  · have he : gTrue c = ' ' := by rw [gTrue, sentenceReplace, if_neg h]
    rw [he]
    decide

lemma mem_collapseWs (l : List Char) (c : Char) (h : c ∈ collapseWs l) :
    c = ' ' ∨ (c ∈ l ∧ isSpaceChar c = false) := by
  induction l using collapseWs.induct with
  | case1 => simp [collapseWs] at h
  | case2 d hd =>
    rw [collapseWs, if_pos hd] at h
    simp at h
    exact Or.inl h
  | case3 d hd =>
    rw [collapseWs, if_neg hd] at h
    simp at h
    subst h
    exact Or.inr ⟨by simp, by simpa using hd⟩
  | case4 c₁ c₂ rest hc ih =>
    rw [collapseWs, if_pos hc] at h
    rcases ih h with h' | ⟨hm, hs⟩
    · exact Or.inl h'
    · exact Or.inr ⟨List.mem_cons_of_mem _ hm, hs⟩
  | case5 c₁ c₂ rest hc ih =>
    rw [collapseWs, if_neg hc] at h
    rcases List.mem_cons.mp h with h' | h'
    · by_cases h₁ : isSpaceChar c₁ = true
      · rw [if_pos h₁] at h'
        exact Or.inl h'
      · rw [if_neg h₁] at h'
        subst h'
        exact Or.inr ⟨by simp, by simpa using h₁⟩
    · rcases ih h' with h'' | ⟨hm, hs⟩
      · exact Or.inl h''
      · exact Or.inr ⟨List.mem_cons_of_mem _ hm, hs⟩

lemma head?_collapseWs (l : List Char) :
    (collapseWs l).head?
      = l.head?.map (fun c => if isSpaceChar c then ' ' else c) := by
  induction l using collapseWs.induct with
  | case1 => rfl
  | case2 d hd =>
    rw [collapseWs, if_pos hd]
    simp [hd]
  | case3 d hd =>
    rw [collapseWs, if_neg hd]
    simp [hd]
  | case4 c₁ c₂ rest hc ih =>
    rw [collapseWs, if_pos hc, ih]
    simp only [Bool.and_eq_true] at hc
    simp [hc.1, hc.2]
  | case5 c₁ c₂ rest hc ih =>
    rw [collapseWs, if_neg hc]
    simp

lemma chain'_collapseWs (l : List Char) :
    List.Chain' (fun a b => ¬(isSpaceChar a = true ∧ isSpaceChar b = true))
      (collapseWs l) := by
  induction l using collapseWs.induct with
  | case1 => simp [collapseWs]
  | case2 d hd =>
    rw [collapseWs, if_pos hd]
    simp
  | case3 d hd =>
    rw [collapseWs, if_neg hd]
    simp
  | case4 c₁ c₂ rest hc ih =>
    rw [collapseWs, if_pos hc]
    exact ih
  | case5 c₁ c₂ rest hc ih =>
    rw [collapseWs, if_neg hc, List.chain'_cons']
    refine ⟨?_, ih⟩
    intro y hy
    rw [head?_collapseWs] at hy
    simp at hy
    simp only [Bool.and_eq_true] at hc
    by_cases h₁ : isSpaceChar c₁ = true
    · have h₂ : ¬ isSpaceChar c₂ = true := fun h₂ => hc ⟨h₁, h₂⟩
      rw [if_neg h₂] at hy
      subst hy
      simp [h₁, h₂]
    · subst hy
      simp [h₁]

lemma collapseWs_eq_self (l : List Char)
    (h1 : List.Chain' (fun a b => ¬(isSpaceChar a = true ∧ isSpaceChar b = true)) l)
    (h2 : ∀ c ∈ l, isSpaceChar c = true → c = ' ') :
    collapseWs l = l := by
  induction l using collapseWs.induct with
  | case1 => rfl
  | case2 d hd => rw [collapseWs, if_pos hd, h2 d (by simp) hd]
  | case3 d hd => rw [collapseWs, if_neg hd]
  | case4 c₁ c₂ rest hc ih =>
    exfalso
    rw [List.chain'_cons] at h1
    simp only [Bool.and_eq_true] at hc
    exact h1.1 ⟨hc.1, hc.2⟩
  | case5 c₁ c₂ rest hc ih =>
    rw [collapseWs, if_neg hc,
      ih (List.chain'_cons.mp h1).2
        (fun c hc' hs => h2 c (List.mem_cons_of_mem _ hc') hs)]
    congr 1
    by_cases h₁ : isSpaceChar c₁ = true
    · rw [if_pos h₁, h2 c₁ (by simp) h₁]
    · rw [if_neg h₁]

lemma dropWhile_head_not (p : Char → Bool) (l : List Char) (c : Char)
    (h : (l.dropWhile p).head? = some c) : p c = false := by
  induction l with
  | nil => simp at h
  | cons x xs ih =>
    rw [List.dropWhile_cons] at h
    split at h
    · exact ih h
    · rename_i hx
      simp at h
      subst h
      simpa using hx

lemma stripL_eq_self (l : List Char)
    (hh : ∀ c, l.head? = some c → isSpaceChar c = false)
    (hl : ∀ c, l.getLast? = some c → isSpaceChar c = false) :
    stripL l = l := by
  rw [stripL]
  have hd : l.dropWhile isSpaceChar = l := by
    cases l with
    | nil => rfl
    | cons x xs =>
      rw [List.dropWhile_cons, if_neg]
      simp [hh x rfl]
  rw [hd]
  have hd2 : l.reverse.dropWhile isSpaceChar = l.reverse := by
    cases hr : l.reverse with
    | nil => rfl
    | cons x xs =>
      rw [List.dropWhile_cons, if_neg]
      have hx : l.getLast? = some x := by
        rw [← List.head?_reverse, hr]
        rfl
      simp [hl x hx]
  rw [hd2, List.reverse_reverse]

lemma mem_stripL (l : List Char) (c : Char) (h : c ∈ stripL l) : c ∈ l := by
  rw [stripL] at h
  have h1 := List.mem_reverse.mp h
  have h2 := (List.dropWhile_sublist isSpaceChar).subset h1
  have h3 := List.mem_reverse.mp h2
  exact (List.dropWhile_sublist isSpaceChar).subset h3

lemma chain'_stripL (l : List Char)
    (h : List.Chain' (fun a b => ¬(isSpaceChar a = true ∧ isSpaceChar b = true)) l) :
    List.Chain' (fun a b => ¬(isSpaceChar a = true ∧ isSpaceChar b = true))
      (stripL l) := by
  rw [stripL]
  have s1 := h.suffix (List.dropWhile_suffix isSpaceChar)
  have s2 : List.Chain'
      (flip (fun a b => ¬(isSpaceChar a = true ∧ isSpaceChar b = true)))
      (l.dropWhile isSpaceChar) :=
    s1.imp (fun a b hab hc => hab ⟨hc.2, hc.1⟩)
  have s3 := List.chain'_reverse.mpr s2
  have s4 := s3.suffix (List.dropWhile_suffix isSpaceChar)
  have s5 : List.Chain'
      (flip (fun a b => ¬(isSpaceChar a = true ∧ isSpaceChar b = true)))
      ((l.dropWhile isSpaceChar).reverse.dropWhile isSpaceChar) :=
    s4.imp (fun a b hab hc => hab ⟨hc.2, hc.1⟩)
  exact List.chain'_reverse.mpr s5

lemma head?_stripL (l : List Char) (c : Char)
    (h : (stripL l).head? = some c) : isSpaceChar c = false := by
  rw [stripL, List.head?_reverse] at h
  obtain ⟨t, ht⟩ :=
    List.dropWhile_suffix (l := (l.dropWhile isSpaceChar).reverse) isSpaceChar
  have hv : (l.dropWhile isSpaceChar).reverse.getLast? = some c := by
    rw [← ht, List.getLast?_append, h]
    rfl
  rw [List.getLast?_reverse] at hv
  exact dropWhile_head_not _ _ _ hv

lemma getLast?_stripL (l : List Char) (c : Char)
    (h : (stripL l).getLast? = some c) : isSpaceChar c = false := by
  rw [stripL, List.getLast?_reverse] at h
  exact dropWhile_head_not _ _ _ h

lemma stripL_collapseWs_idem (l : List Char) :
    stripL (collapseWs (stripL (collapseWs l))) = stripL (collapseWs l) := by
  have h2 : ∀ c ∈ stripL (collapseWs l), isSpaceChar c = true → c = ' ' := by
    intro c hc hs
    rcases mem_collapseWs l c (mem_stripL _ c hc) with h' | ⟨_, h''⟩
    · exact h'
    · rw [hs] at h''
      cases h''
  have h1 := chain'_stripL _ (chain'_collapseWs l)
  rw [collapseWs_eq_self _ h1 h2,
    stripL_eq_self _ (fun c h => head?_stripL _ c h)
      (fun c h => getLast?_stripL _ c h)]

lemma mem_stripPunct (l : List Char) :
    ∀ (prev : Option Char) (c : Char), c ∈ stripPunct prev l →
      c = ' ' ∨ (c ∈ l ∧ (isWordChar c = true ∨ isSpaceChar c = true)) := by
  induction l with
  | nil =>
    intro prev c h
    simp [stripPunct] at h
  | cons x xs ih =>
    intro prev c h
    rw [stripPunct] at h
    rcases List.mem_cons.mp h with h' | h'
    · by_cases hb : ((x = '\'' && !isWordOpt prev && !isWordOpt xs.head?) ||
          (!isWordChar x && !isSpaceChar x)) = true
      · rw [if_pos hb] at h'
        exact Or.inl h'
      · rw [if_neg hb] at h'
        subst h'
        simp only [Bool.or_eq_true, Bool.and_eq_true, Bool.not_eq_true'] at hb
        push_neg at hb
        refine Or.inr ⟨by simp, ?_⟩
        by_cases hw : isWordChar c = true
        · exact Or.inl hw
        · have := hb.2 (by simpa using hw)
          exact Or.inr (by simpa using this)
    · rcases ih (some x) c h' with h'' | ⟨hm, hk⟩
      · exact Or.inl h''
      · exact Or.inr ⟨List.mem_cons_of_mem _ hm, hk⟩

lemma stripPunct_fix (l : List Char)
    (h : ∀ c ∈ l, isWordChar c = true ∨ c = ' ') :
    ∀ prev, stripPunct prev l = l := by
  induction l with
  | nil => intro prev; rfl
  | cons x xs ih =>
    intro prev
    rw [stripPunct]
    have hcond : ((x = '\'' && !isWordOpt prev && !isWordOpt xs.head?) ||
        (!isWordChar x && !isSpaceChar x)) = false := by
      rcases h x (by simp) with hw | rfl
      · have hq : x ≠ '\'' := by
          intro he
          rw [he] at hw
          cases hw
        simp [hw, hq]
      · simp
        intro _
        rfl
    rw [hcond]
    simp only [Bool.false_eq_true, if_false]
    rw [ih (fun c hc => h c (List.mem_cons_of_mem _ hc)) (some x)]

lemma map_fix (f : Char → Char) (l : List Char)
    (h : ∀ c ∈ l, f c = c) : l.map f = l := by
  induction l with
  | nil => rfl
  | cons x xs ih =>
    rw [List.map_cons, h x (by simp), ih (fun c hc => h c (by simp [hc]))]

lemma gTrue_cases (c : Char) : gTrue c = normChar c ∨ gTrue c = ' ' := by
  rw [gTrue, sentenceReplace]
  split
  · exact Or.inl rfl
  · exact Or.inr rfl

lemma gTrue_ne_curly (c : Char) : gTrue c ≠ '‘' ∧ gTrue c ≠ '’' := by
  rcases gTrue_cases c with he | he <;> rw [he]
  · exact normChar_ne_curly c
  · exact ⟨by decide, by decide⟩

lemma gTrue_ne_mdash (c : Char) : gTrue c ≠ '—' ∧ gTrue c ≠ '–' := by
  rcases gTrue_cases c with he | he <;> rw [he]
  · exact normChar_ne_mdash c
  · exact ⟨by decide, by decide⟩

lemma pyLower_gTrue (c : Char) : pyLower (gTrue c) = gTrue c := by
  rcases gTrue_cases c with he | he <;> rw [he]
  · exact pyLower_normChar c
  · decide

lemma sentenceReplace_gTrue (c : Char) :
    sentenceReplace (gTrue c) = gTrue c := by
  rw [sentenceReplace, if_pos (gTrue_keep c)]

lemma mem_normalize_true (text : List Char) (c : Char)
    (h : c ∈ normalize_text text true) : c = ' ' ∨ ∃ d, c = gTrue d := by
  have he : normalize_text text true
      = stripL (collapseWs (((((text.map pyLower).map dquoteSub).map
          squoteSub).map dashSub).map sentenceReplace)) := rfl
  rw [he] at h
  rcases mem_collapseWs _ c (mem_stripL _ c h) with rfl | ⟨hc, _⟩
  · exact Or.inl rfl
  · right
    obtain ⟨d4, hd4, rfl⟩ := List.mem_map.mp hc
    obtain ⟨d3, hd3, rfl⟩ := List.mem_map.mp hd4
    obtain ⟨d2, hd2, rfl⟩ := List.mem_map.mp hd3
    obtain ⟨d1, hd1, rfl⟩ := List.mem_map.mp hd2
    obtain ⟨d0, _, rfl⟩ := List.mem_map.mp hd1
    exact ⟨d0, rfl⟩

lemma fix_of_mem_true (text : List Char) (c : Char)
    (h : c ∈ normalize_text text true) :
    pyLower c = c ∧ dquoteSub c = c ∧ squoteSub c = c ∧ dashSub c = c ∧
      sentenceReplace c = c := by
  rcases mem_normalize_true text c h with rfl | ⟨d, rfl⟩
  · exact ⟨by decide, by decide, by decide, by decide, by decide⟩
  · exact ⟨pyLower_gTrue d, dquoteSub_id _,
      squoteSub_of_ne _ (gTrue_ne_curly d).1 (gTrue_ne_curly d).2,
      dashSub_of_ne _ (gTrue_ne_mdash d).1 (gTrue_ne_mdash d).2,
      sentenceReplace_gTrue d⟩

lemma mem_normalize_false (text : List Char) (c : Char)
    (h : c ∈ normalize_text text false) :
    c = ' ' ∨ (isWordChar c = true ∧ ∃ d, c = normChar d) := by
  have he : normalize_text text false
      = stripL (collapseWs (stripPunct none ((((text.map pyLower).map
          dquoteSub).map squoteSub).map dashSub))) := rfl
  rw [he] at h
  rcases mem_collapseWs _ c (mem_stripL _ c h) with rfl | ⟨hc, hns⟩
  · exact Or.inl rfl
  · rcases mem_stripPunct _ none c hc with rfl | ⟨hm, hk⟩
    · exact Or.inl rfl
    · right
      refine ⟨?_, ?_⟩
      · rcases hk with hw | hs
        · exact hw
        · rw [hs] at hns
          cases hns
      · obtain ⟨d3, hd3, rfl⟩ := List.mem_map.mp hm
        obtain ⟨d2, hd2, rfl⟩ := List.mem_map.mp hd3
        obtain ⟨d1, hd1, rfl⟩ := List.mem_map.mp hd2
        obtain ⟨d0, _, rfl⟩ := List.mem_map.mp hd1
        exact ⟨d0, rfl⟩

lemma fix_of_mem_false (text : List Char) (c : Char)
    (h : c ∈ normalize_text text false) :
    pyLower c = c ∧ dquoteSub c = c ∧ squoteSub c = c ∧ dashSub c = c ∧
      (isWordChar c = true ∨ c = ' ') := by
  rcases mem_normalize_false text c h with rfl | ⟨hw, d, rfl⟩
  · exact ⟨by decide, by decide, by decide, by decide, Or.inr rfl⟩
  · exact ⟨pyLower_normChar d, dquoteSub_id _,
      squoteSub_of_ne _ (normChar_ne_curly d).1 (normChar_ne_curly d).2,
      dashSub_of_ne _ (normChar_ne_mdash d).1 (normChar_ne_mdash d).2,
      Or.inl hw⟩

/-! Claim C7 -/

/-- C7: `normalize_text` is idempotent for both values of
`preserve_sentences`. -/
theorem C7_normalize_idempotent (text : List Char)
    (preserve_sentences : Bool) :
    normalize_text (normalize_text text preserve_sentences)
        preserve_sentences
      = normalize_text text preserve_sentences := by
  cases preserve_sentences with
  | true =>
    have he : normalize_text text true
        = stripL (collapseWs (((((text.map pyLower).map dquoteSub).map
            squoteSub).map dashSub).map sentenceReplace)) := rfl
    have he2 : normalize_text (normalize_text text true) true
        = stripL (collapseWs ((((((normalize_text text true).map
            pyLower).map dquoteSub).map squoteSub).map dashSub).map
            sentenceReplace)) := rfl
    rw [he2,
      map_fix pyLower _ (fun c hc => (fix_of_mem_true text c hc).1),
      map_fix dquoteSub _ (fun c hc => (fix_of_mem_true text c hc).2.1),
      map_fix squoteSub _ (fun c hc => (fix_of_mem_true text c hc).2.2.1),
      map_fix dashSub _ (fun c hc => (fix_of_mem_true text c hc).2.2.2.1),
      map_fix sentenceReplace _
        (fun c hc => (fix_of_mem_true text c hc).2.2.2.2)]
    rw [he]
    exact stripL_collapseWs_idem _
  | false =>
    have he : normalize_text text false
        = stripL (collapseWs (stripPunct none ((((text.map pyLower).map
            dquoteSub).map squoteSub).map dashSub))) := rfl
    have he2 : normalize_text (normalize_text text false) false
        = stripL (collapseWs (stripPunct none (((((normalize_text text
            false).map pyLower).map dquoteSub).map squoteSub).map
            dashSub))) := rfl
    rw [he2,
      map_fix pyLower _ (fun c hc => (fix_of_mem_false text c hc).1),
      map_fix dquoteSub _ (fun c hc => (fix_of_mem_false text c hc).2.1),
      map_fix squoteSub _ (fun c hc => (fix_of_mem_false text c hc).2.2.1),
      map_fix dashSub _ (fun c hc => (fix_of_mem_false text c hc).2.2.2.1),
      stripPunct_fix _
        (fun c hc => (fix_of_mem_false text c hc).2.2.2.2) none]
    rw [he]
    exact stripL_collapseWs_idem _

/-! Claim C6 -/

/-- C6 counterexample: on `"a-b"` with `preserve_sentences = true` the
output contains `'-'`, which is neither a word character, nor whitespace,
nor `'.'`, `'!'`, `'?'`, nor an apostrophe: the kept class of line 54,
`[^\w\s.!?\'-]`, also keeps hyphen-minus, which the claim omits. -/
theorem C6_counterexample :
    normalize_text ['a', '-', 'b'] true = ['a', '-', 'b'] ∧
      '-' ∈ normalize_text ['a', '-', 'b'] true ∧
      isWordChar '-' = false ∧ isSpaceChar '-' = false ∧
      ('-' : Char) ≠ '.' ∧ ('-' : Char) ≠ '!' ∧ ('-' : Char) ≠ '?' ∧
      ('-' : Char) ≠ '\'' := by
  decide

/-- C6 (amended): every character of `normalize_text(text, true)` is a
word character, whitespace, `'.'`, `'!'`, `'?'`, an apostrophe, or a
hyphen-minus; and every character outside this kept class is replaced by
a single space (before whitespace collapsing). -/
theorem C6_normalize_output_charset :
    (∀ (text : List Char) (c : Char), c ∈ normalize_text text true →
      isWordChar c = true ∨ isSpaceChar c = true ∨ c = '.' ∨ c = '!' ∨
        c = '?' ∨ c = '\'' ∨ c = '-') ∧
    (∀ c : Char, keepSentenceChar c = false → sentenceReplace c = ' ') := by
  constructor
  · intro text c h
    rcases mem_normalize_true text c h with rfl | ⟨d, rfl⟩
    · exact Or.inr (Or.inl (by decide))
    · have hk := gTrue_keep d
      rw [keepSentenceChar] at hk
      simp only [Bool.or_eq_true, decide_eq_true_eq, or_assoc] at hk
      exact hk
  · intro c hc
    rw [sentenceReplace, if_neg]
    simp [hc]

/-- C6 witness: the amended theorem applied at `text = "a!"`, character
`'a'` of the output, and at the replaced character `','`. -/
theorem C6_normalize_output_charset_witness :
    (isWordChar 'a' = true ∨ isSpaceChar 'a' = true ∨ 'a' = '.' ∨
      'a' = '!' ∨ 'a' = '?' ∨ 'a' = '\'' ∨ 'a' = '-') ∧
      sentenceReplace ',' = ' ' :=
  ⟨C6_normalize_output_charset.1 ['a', '!'] 'a' (by decide),
    C6_normalize_output_charset.2 ',' (by decide)⟩
